import Mathlib

/-!
Shallow embedding of the `memo-cache` Rust crate (`src/lib.rs`): a
fixed-size key/value cache `MemoCache<K, V, SIZE>` backed by an array of
tagged slots and a FIFO cursor.

Modelling conventions:
  * the slot array `buffer: [KeyValueSlot<K, V>; SIZE]` becomes a
    `List (KeyValueSlot K V)`; the const generic `SIZE` is the list length;
  * iterator combinators of the source (`find`, `position`, `any`) are
    modelled by the recursive functions `iterFind`, `iterPosition`,
    `iterAny`, mirroring their one-pass left-to-right semantics;
  * the `unsafe { get_unchecked_mut(cursor) }` access and the
    `(cursor + 1) % SIZE` arithmetic in `replace_and_shift` are modelled
    with an explicit bounds check: an out-of-range cursor (the situation in
    which the Rust code has undefined behaviour, reachable for `SIZE = 0`)
    yields `none`, so fallible paths return `Option`;
  * `Clone` on keys is the identity; `Borrow`-based key equivalence is
    instantiated at the stored key type, i.e. plain decidable equality;
  * the caller-supplied fallible closure of `get_or_try_insert_with`
    returns `Except E V` for Rust's `Result<V, E>`.
-/

/-- Model of `Iterator::find`: first element satisfying `p`, scanning left to right. -/
def iterFind {α : Type} (p : α → Bool) : List α → Option α
  | [] => none
  | a :: l => if p a then some a else iterFind p l

/-- Model of `Iterator::position`: index of the first element satisfying `p`. -/
def iterPosition {α : Type} (p : α → Bool) : List α → Option Nat
  | [] => none
  | a :: l => if p a then some 0 else (iterPosition p l).map (· + 1)

/-- Model of `Iterator::any`. -/
def iterAny {α : Type} (p : α → Bool) : List α → Bool
  | [] => false
  | a :: l => p a || iterAny p l

/-- A single key/value slot used in the cache (`enum KeyValueSlot<K, V>`). -/
inductive KeyValueSlot (K V : Type) where
  | Used : K × V → KeyValueSlot K V
  | Empty : KeyValueSlot K V
deriving DecidableEq

namespace KeyValueSlot

variable {K V : Type}

/-- Check a used slot key for equivalence (`KeyValueSlot::is_key`). -/
def is_key [DecidableEq K] (s : KeyValueSlot K V) (k : K) : Bool :=
  match s with
  | Used kv => decide (k = kv.1)
  | Empty => false

/-- Get the value of a used slot (`KeyValueSlot::get_value`). -/
def get_value (s : KeyValueSlot K V) : Option V :=
  match s with
  | Used kv => some kv.2
  | Empty => none

/-- Update the value of a used slot (`KeyValueSlot::update_value`). -/
def update_value (s : KeyValueSlot K V) (v : V) : KeyValueSlot K V :=
  match s with
  | Used kv => Used (kv.1, v)
  | Empty => Empty

/-- Apply `g` to the value of a used slot: models a caller writing `g v`
through the `&mut V` handed out by `MemoCache::get_mut`. -/
def map_value (s : KeyValueSlot K V) (g : V → V) : KeyValueSlot K V :=
  match s with
  | Used kv => Used (kv.1, g kv.2)
  | Empty => Empty

/-- The key stored in a slot, if the slot is used. -/
def stored_key (s : KeyValueSlot K V) : Option K :=
  match s with
  | Used kv => some kv.1
  | Empty => none

end KeyValueSlot

/-- The cache `MemoCache<K, V, SIZE>`: slot buffer plus FIFO cursor.
`SIZE` is `buffer.length`. -/
structure MemoCache (K V : Type) where
  buffer : List (KeyValueSlot K V)
  cursor : Nat
deriving DecidableEq

namespace MemoCache

variable {K V : Type} [DecidableEq K]

/-- `MemoCache::new`: `SIZE` empty slots, cursor 0. -/
def new (K V : Type) (SIZE : Nat) : MemoCache K V :=
  ⟨List.replicate SIZE KeyValueSlot.Empty, 0⟩

/-- `MemoCache::capacity`. -/
def capacity (c : MemoCache K V) : Nat :=
  c.buffer.length

/-- Well-formedness of a cache state: the cursor is in bounds. This is the
precondition the source assumes (comment "The cursor value is assumed to be
correct") for the unchecked access in `replace_and_shift`. -/
def WF (c : MemoCache K V) : Prop :=
  c.cursor < c.buffer.length

instance (c : MemoCache K V) : Decidable c.WF := by
  unfold WF; infer_instance

/-- `MemoCache::replace_and_shift`: overwrite the slot under the cursor and
advance the cursor modulo `SIZE`, returning the written value. The source
performs `get_unchecked_mut(self.cursor)`; an out-of-bounds cursor is
undefined behaviour there and yields `none` here. -/
def replace_and_shift (c : MemoCache K V) (k : K) (v : V) :
    Option (MemoCache K V × V) :=
  if _ : c.cursor < c.buffer.length then
    some (⟨c.buffer.set c.cursor (KeyValueSlot.Used (k, v)),
           (c.cursor + 1) % c.buffer.length⟩, v)
  else
    none

/-- `MemoCache::insert`: update in place if the key is found, otherwise
replace the slot under the cursor. -/
def insert (c : MemoCache K V) (k : K) (v : V) : Option (MemoCache K V) :=
  match iterPosition (fun e => e.is_key k) c.buffer with
  | some i =>
      some ⟨c.buffer.set i ((c.buffer.getD i KeyValueSlot.Empty).update_value v),
            c.cursor⟩
  | none => (c.replace_and_shift k v).map Prod.fst

/-- `MemoCache::contains_key`. -/
def contains_key (c : MemoCache K V) (k : K) : Bool :=
  iterAny (fun e => e.is_key k) c.buffer

/-- `MemoCache::get`. The source unwraps `get_value` on the found slot;
the model chains through `Option.bind`, which agrees because a found slot
always satisfies `is_key` and hence is `Used`. -/
def get (c : MemoCache K V) (k : K) : Option V :=
  (iterFind (fun e => e.is_key k) c.buffer).bind KeyValueSlot.get_value

/-- `MemoCache::get_mut` as an observer: the value the returned `&mut V`
points at, if any. -/
def get_mut (c : MemoCache K V) (k : K) : Option V :=
  (iterFind (fun e => e.is_key k) c.buffer).bind KeyValueSlot.get_value

/-- The state change produced by a caller writing `g v` through the mutable
reference returned by `MemoCache::get_mut` (no-op when the key is absent). -/
def modify_via_get_mut (c : MemoCache K V) (k : K) (g : V → V) : MemoCache K V :=
  match iterPosition (fun e => e.is_key k) c.buffer with
  | some i =>
      ⟨c.buffer.set i ((c.buffer.getD i KeyValueSlot.Empty).map_value g), c.cursor⟩
  | none => c

/-- `MemoCache::get_key_index`. -/
def get_key_index (c : MemoCache K V) (k : K) : Option Nat :=
  iterPosition (fun e => e.is_key k) c.buffer

/-- `MemoCache::get_or_insert_with`: returns the new state and the value the
returned reference points at. The `unwrap_unchecked` on the found slot is
modelled by `Option.map` over `get_value`. -/
def get_or_insert_with (c : MemoCache K V) (k : K) (f : K → V) :
    Option (MemoCache K V × V) :=
  match c.get_key_index k with
  | some i => ((c.buffer.getD i KeyValueSlot.Empty).get_value).map (fun v => (c, v))
  | none => c.replace_and_shift k (f k)

/-- `MemoCache::get_or_insert_with`, instrumented with the list of arguments
the callback `f` is invoked on (the `FnOnce` call trace). -/
def get_or_insert_with_traced (c : MemoCache K V) (k : K) (f : K → V) :
    Option (MemoCache K V × V) × List K :=
  match c.get_key_index k with
  | some i => (((c.buffer.getD i KeyValueSlot.Empty).get_value).map (fun v => (c, v)), [])
  | none => (c.replace_and_shift k (f k), [k])

/-- `MemoCache::get_or_try_insert_with`: returns the new state together with
the `Result`; the callback only runs on a miss, and `replace_and_shift` only
runs when it returns `Ok`. -/
def get_or_try_insert_with {E : Type} (c : MemoCache K V) (k : K)
    (f : K → Except E V) : Option (MemoCache K V × Except E V) :=
  match c.get_key_index k with
  | some i =>
      ((c.buffer.getD i KeyValueSlot.Empty).get_value).map (fun v => (c, Except.ok v))
  | none =>
      match f k with
      | Except.error e => some (c, Except.error e)
      | Except.ok v => (c.replace_and_shift k v).map (fun p => (p.1, Except.ok p.2))

/-- `MemoCache::clear`: every slot to `Empty`, cursor to 0. -/
def clear (c : MemoCache K V) : MemoCache K V :=
  ⟨c.buffer.map (fun _ => KeyValueSlot.Empty), 0⟩

/-- Run a sequence of `insert` calls left to right. -/
def insertMany (c : MemoCache K V) : List (K × V) → Option (MemoCache K V)
  | [] => some c
  | kv :: rest => (c.insert kv.1 kv.2).bind (fun c2 => insertMany c2 rest)

/-- The keys currently stored in the buffer, in slot order. -/
def keysOf (l : List (KeyValueSlot K V)) : List K :=
  l.filterMap KeyValueSlot.stored_key

/-- Key uniqueness: no key occupies two slots. -/
def KeysUnique (c : MemoCache K V) : Prop :=
  (keysOf c.buffer).Nodup

/-- States reachable from a fresh cache by the public mutating operations
(`insert`, `get_or_insert_with`, `get_or_try_insert_with`, writes through
`get_mut`, and `clear`). -/
inductive Reachable : MemoCache K V → Prop where
  | new (SIZE : Nat) : Reachable (MemoCache.new K V SIZE)
  | insert {c c' : MemoCache K V} {k : K} {v : V} :
      Reachable c → c.insert k v = some c' → Reachable c'
  | gow {c c' : MemoCache K V} {k : K} {f : K → V} {v : V} :
      Reachable c → c.get_or_insert_with k f = some (c', v) → Reachable c'
  | gtw {c c' : MemoCache K V} {k : K} {E : Type} {f : K → Except E V}
      {r : Except E V} :
      Reachable c → c.get_or_try_insert_with k f = some (c', r) → Reachable c'
  | modify {c : MemoCache K V} {k : K} {g : V → V} :
      Reachable c → Reachable (c.modify_via_get_mut k g)
  | clear {c : MemoCache K V} :
      Reachable c → Reachable c.clear

end MemoCache

/-! ## Iterator lemmas -/

theorem iterAny_eq_isSome {α : Type} (p : α → Bool) (l : List α) :
    iterAny p l = (iterPosition p l).isSome := by
  induction l with
  | nil => rfl
  | cons a t ih =>
      by_cases h : p a = true
      · simp [iterAny, iterPosition, h]
      · simp only [Bool.not_eq_true] at h
        simp [iterAny, iterPosition, h, ih]

theorem iterPosition_eq_none_iff {α : Type} (p : α → Bool) (l : List α) :
    iterPosition p l = none ↔ ∀ a ∈ l, p a = false := by
  induction l with
  | nil => simp [iterPosition]
  | cons a t ih =>
      by_cases h : p a = true
      · simp [iterPosition, h]
      · simp only [Bool.not_eq_true] at h
        simp [iterPosition, h, ih]

theorem iterAny_eq_false_iff {α : Type} (p : α → Bool) (l : List α) :
    iterAny p l = false ↔ ∀ a ∈ l, p a = false := by
  induction l with
  | nil => simp [iterAny]
  | cons a t ih => simp [iterAny, ih]

theorem iterAny_eq_true_iff {α : Type} (p : α → Bool) (l : List α) :
    iterAny p l = true ↔ ∃ a ∈ l, p a = true := by
  induction l with
  | nil => simp [iterAny]
  | cons a t ih => simp [iterAny, ih]

theorem iterPosition_isSome_of_true {α : Type} {p : α → Bool} {l : List α} {a : α}
    (ha : a ∈ l) (hp : p a = true) : (iterPosition p l).isSome = true := by
  rw [← iterAny_eq_isSome, iterAny_eq_true_iff]
  exact ⟨a, ha, hp⟩

theorem iterPosition_spec {α : Type} (p : α → Bool) (l : List α) (i : Nat) (d : α)
    (h : iterPosition p l = some i) : i < l.length ∧ p (l.getD i d) = true := by
  induction l generalizing i with
  | nil => simp [iterPosition] at h
  | cons a t ih =>
      by_cases hp : p a = true
      · simp [iterPosition, hp] at h
        subst h
        simpa [List.getD] using hp
      · simp only [Bool.not_eq_true] at hp
        simp [iterPosition, hp] at h
        obtain ⟨j, hj, rfl⟩ := h
        obtain ⟨h1, h2⟩ := ih j hj
        refine ⟨by simpa using h1, by simpa [List.getD] using h2⟩

theorem iterFind_of_position {α : Type} (p : α → Bool) (l : List α) (i : Nat) (d : α)
    (h : iterPosition p l = some i) : iterFind p l = some (l.getD i d) := by
  induction l generalizing i with
  | nil => simp [iterPosition] at h
  | cons a t ih =>
      by_cases hp : p a = true
      · simp [iterPosition, hp] at h
        subst h
        simp [iterFind, hp, List.getD]
      · simp only [Bool.not_eq_true] at hp
        simp [iterPosition, hp] at h
        obtain ⟨j, hj, rfl⟩ := h
        simpa [iterFind, hp, List.getD] using ih j hj

theorem iterFind_eq_none_iff {α : Type} (p : α → Bool) (l : List α) :
    iterFind p l = none ↔ ∀ a ∈ l, p a = false := by
  induction l with
  | nil => simp [iterFind]
  | cons a t ih =>
      by_cases h : p a = true
      · simp [iterFind, h]
      · simp only [Bool.not_eq_true] at h
        simp [iterFind, h, ih]

/-! ## Slot lemmas -/

namespace KeyValueSlot

variable {K V : Type}

theorem is_key_update_value [DecidableEq K] (s : KeyValueSlot K V) (v : V) (q : K) :
    (s.update_value v).is_key q = s.is_key q := by
  cases s <;> rfl

theorem is_key_map_value [DecidableEq K] (s : KeyValueSlot K V) (g : V → V) (q : K) :
    (s.map_value g).is_key q = s.is_key q := by
  cases s <;> rfl

theorem eq_used_of_is_key [DecidableEq K] {s : KeyValueSlot K V} {k : K}
    (h : s.is_key k = true) : ∃ w, s = Used (k, w) := by
  cases s with
  | Used kv =>
      simp [is_key] at h
      exact ⟨kv.2, by simp [h]⟩
  | Empty => simp [is_key] at h

theorem stored_key_update_value (s : KeyValueSlot K V) (v : V) :
    (s.update_value v).stored_key = s.stored_key := by
  cases s <;> rfl

theorem stored_key_map_value (s : KeyValueSlot K V) (g : V → V) :
    (s.map_value g).stored_key = s.stored_key := by
  cases s <;> rfl

end KeyValueSlot

/-! ## List update lemmas -/

theorem listGetD_set_self {α : Type} (l : List α) (i : Nat) (x d : α)
    (h : i < l.length) : (l.set i x).getD i d = x := by
  induction l generalizing i with
  | nil => simp at h
  | cons a t ih =>
      cases i with
      | zero => simp [List.getD]
      | succ j =>
          simp only [List.length_cons, Nat.succ_lt_succ_iff] at h
          simpa [List.getD] using ih j h

theorem listGetD_set_ne {α : Type} (l : List α) (i j : Nat) (x d : α)
    (h : j ≠ i) : (l.set i x).getD j d = l.getD j d := by
  induction l generalizing i j with
  | nil => simp
  | cons a t ih =>
      cases i with
      | zero =>
          cases j with
          | zero => exact absurd rfl h
          | succ m => simp [List.getD]
      | succ n =>
          cases j with
          | zero => simp [List.getD]
          | succ m =>
              simpa [List.getD] using ih n m (fun hh => h (by simp [hh]))

theorem listSet_getD_self {α : Type} (l : List α) (i : Nat) (d : α)
    (h : i < l.length) : l.set i (l.getD i d) = l := by
  induction l generalizing i with
  | nil => simp at h
  | cons a t ih =>
      cases i with
      | zero => simp [List.getD]
      | succ j =>
          simp only [List.length_cons, Nat.succ_lt_succ_iff] at h
          rw [List.getD_cons_succ]
          show a :: t.set j (t.getD j d) = a :: t
          rw [ih j h]

theorem listSet_append_left_length {α : Type} (a b : List α) (x : α) :
    (a ++ b).set a.length x = a ++ b.set 0 x := by
  induction a with
  | nil => simp
  | cons y t ih => simp [ih]

/-! ## Lemmas about stored keys -/

namespace MemoCache

variable {K V : Type}

theorem keysOf_nil : keysOf ([] : List (KeyValueSlot K V)) = [] := rfl

theorem keysOf_cons_used (kv : K × V) (t : List (KeyValueSlot K V)) :
    keysOf (KeyValueSlot.Used kv :: t) = kv.1 :: keysOf t := by
  simp [keysOf, KeyValueSlot.stored_key]

theorem keysOf_cons_empty (t : List (KeyValueSlot K V)) :
    keysOf (KeyValueSlot.Empty :: t) = keysOf t := by
  simp [keysOf, KeyValueSlot.stored_key]

theorem mem_keysOf_iff [DecidableEq K] {l : List (KeyValueSlot K V)} {k : K} :
    k ∈ keysOf l ↔ ∃ s ∈ l, s.is_key k = true := by
  induction l with
  | nil => simp [keysOf]
  | cons s t ih =>
      cases s with
      | Used kv =>
          rw [keysOf_cons_used]
          constructor
          · intro h
            rcases List.mem_cons.mp h with rfl | h
            · exact ⟨KeyValueSlot.Used kv, List.mem_cons_self _ _,
                by simp [KeyValueSlot.is_key]⟩
            · obtain ⟨s, hs, hk⟩ := ih.mp h
              exact ⟨s, List.mem_cons_of_mem _ hs, hk⟩
          · rintro ⟨s, hs, hk⟩
            rcases List.mem_cons.mp hs with rfl | hs
            · have hkk : k = kv.1 := by simpa [KeyValueSlot.is_key] using hk
              exact List.mem_cons.mpr (Or.inl hkk)
            · exact List.mem_cons.mpr (Or.inr (ih.mpr ⟨s, hs, hk⟩))
      | Empty =>
          rw [keysOf_cons_empty]
          constructor
          · intro h
            obtain ⟨s, hs, hk⟩ := ih.mp h
            exact ⟨s, List.mem_cons_of_mem _ hs, hk⟩
          · rintro ⟨s, hs, hk⟩
            rcases List.mem_cons.mp hs with rfl | hs
            · simp [KeyValueSlot.is_key] at hk
            · exact ih.mpr ⟨s, hs, hk⟩

theorem keysOf_set_same_stored_key {l : List (KeyValueSlot K V)} {i : Nat}
    {s' : KeyValueSlot K V}
    (h : (l.getD i KeyValueSlot.Empty).stored_key = s'.stored_key) :
    keysOf (l.set i s') = keysOf l := by
  induction l generalizing i with
  | nil => simp
  | cons a t ih =>
      cases i with
      | zero =>
          simp only [List.getD_cons_zero] at h
          simp only [List.set]
          cases a with
          | Used kv =>
              cases s' with
              | Used kv' =>
                  simp [KeyValueSlot.stored_key] at h
                  rw [keysOf_cons_used, keysOf_cons_used, h]
              | Empty => simp [KeyValueSlot.stored_key] at h
          | Empty =>
              cases s' with
              | Used kv' => simp [KeyValueSlot.stored_key] at h
              | Empty => rfl
      | succ j =>
          simp only [List.getD_cons_succ] at h
          simp only [List.set]
          cases a with
          | Used kv => rw [keysOf_cons_used, keysOf_cons_used, ih h]
          | Empty => rw [keysOf_cons_empty, keysOf_cons_empty, ih h]

theorem mem_keysOf_set {l : List (KeyValueSlot K V)} {j : Nat} {k m : K} {v : V}
    (h : m ∈ keysOf (l.set j (KeyValueSlot.Used (k, v)))) :
    m ∈ keysOf l ∨ m = k := by
  induction l generalizing j with
  | nil => simp [List.set, keysOf] at h
  | cons a t ih =>
      cases j with
      | zero =>
          simp only [List.set] at h
          rw [keysOf_cons_used] at h
          rcases List.mem_cons.mp h with rfl | h
          · exact Or.inr rfl
          · left
            cases a with
            | Used kv => rw [keysOf_cons_used]; exact List.mem_cons_of_mem _ h
            | Empty => rwa [keysOf_cons_empty]
      | succ n =>
          simp only [List.set] at h
          cases a with
          | Used kv =>
              rw [keysOf_cons_used] at h
              rcases List.mem_cons.mp h with rfl | h
              · left; rw [keysOf_cons_used]; exact List.mem_cons_self _ _
              · rcases ih h with hm | hm
                · left; rw [keysOf_cons_used]; exact List.mem_cons_of_mem _ hm
                · exact Or.inr hm
          | Empty =>
              rw [keysOf_cons_empty] at h
              rcases ih h with hm | hm
              · left; rwa [keysOf_cons_empty]
              · exact Or.inr hm

theorem nodup_keysOf_set {l : List (KeyValueSlot K V)} {j : Nat} {k : K} {v : V}
    (hk : k ∉ keysOf l) (hnd : (keysOf l).Nodup) :
    (keysOf (l.set j (KeyValueSlot.Used (k, v)))).Nodup := by
  induction l generalizing j with
  | nil => simp [List.set, keysOf]
  | cons a t ih =>
      have hsub : keysOf t ⊆ keysOf (a :: t) := by
        intro m hm
        cases a with
        | Used kv => rw [keysOf_cons_used]; exact List.mem_cons_of_mem _ hm
        | Empty => rwa [keysOf_cons_empty]
      have hkt : k ∉ keysOf t := fun hm => hk (hsub hm)
      have hndt : (keysOf t).Nodup := by
        cases a with
        | Used kv =>
            rw [keysOf_cons_used] at hnd
            exact (List.nodup_cons.mp hnd).2
        | Empty => rwa [keysOf_cons_empty] at hnd
      cases j with
      | zero =>
          simp only [List.set]
          rw [keysOf_cons_used]
          exact List.nodup_cons.mpr ⟨hkt, hndt⟩
      | succ n =>
          simp only [List.set]
          cases a with
          | Used kv =>
              rw [keysOf_cons_used]
              refine List.nodup_cons.mpr ⟨?_, ih hkt hndt⟩
              intro hmem
              rcases mem_keysOf_set hmem with hm | hm
              · rw [keysOf_cons_used] at hnd
                exact (List.nodup_cons.mp hnd).1 hm
              · rw [keysOf_cons_used] at hk
                exact hk (by simp [hm])
          | Empty =>
              rw [keysOf_cons_empty]
              exact ih hkt hndt

theorem keysOf_replicate_empty (n : Nat) :
    keysOf (List.replicate n (KeyValueSlot.Empty : KeyValueSlot K V)) = [] := by
  induction n with
  | zero => rfl
  | succ m ih => rw [List.replicate_succ, keysOf_cons_empty, ih]

theorem keysOf_map_empty (l : List (KeyValueSlot K V)) :
    keysOf (l.map (fun _ => (KeyValueSlot.Empty : KeyValueSlot K V))) = [] := by
  induction l with
  | nil => rfl
  | cons a t ih => simpa [keysOf_cons_empty] using ih

theorem contains_key_eq_true_iff [DecidableEq K] {c : MemoCache K V} {k : K} :
    c.contains_key k = true ↔ k ∈ keysOf c.buffer := by
  rw [contains_key, iterAny_eq_true_iff]
  exact ⟨fun ⟨s, hs, hk⟩ => mem_keysOf_iff.mpr ⟨s, hs, hk⟩,
    fun h => mem_keysOf_iff.mp h⟩

theorem contains_key_eq_false_iff [DecidableEq K] {c : MemoCache K V} {k : K} :
    c.contains_key k = false ↔ ∀ s ∈ c.buffer, s.is_key k = false := by
  rw [contains_key, iterAny_eq_false_iff]

end MemoCache

/-! ## Operation-level lemmas -/

namespace MemoCache

variable {K V : Type}

theorem replace_and_shift_eq {c : MemoCache K V} (hWF : c.WF) (k : K) (v : V) :
    c.replace_and_shift k v =
      some (⟨c.buffer.set c.cursor (KeyValueSlot.Used (k, v)),
             (c.cursor + 1) % c.buffer.length⟩, v) := by
  have hlt : c.cursor < c.buffer.length := hWF
  simp [replace_and_shift, hlt]

theorem replace_and_shift_eq_none {c : MemoCache K V} (h : ¬ c.WF) (k : K) (v : V) :
    c.replace_and_shift k v = none := by
  have hlt : ¬ c.cursor < c.buffer.length := h
  simp [replace_and_shift, hlt]

variable [DecidableEq K]

theorem position_eq_none_of_not_contains {c : MemoCache K V} {k : K}
    (hk : c.contains_key k = false) :
    iterPosition (fun e => e.is_key k) c.buffer = none := by
  rw [iterPosition_eq_none_iff]
  exact contains_key_eq_false_iff.mp hk

theorem insert_miss {c : MemoCache K V} {k : K} (v : V)
    (hk : c.contains_key k = false) (hWF : c.WF) :
    c.insert k v = some ⟨c.buffer.set c.cursor (KeyValueSlot.Used (k, v)),
                         (c.cursor + 1) % c.buffer.length⟩ := by
  rw [insert, position_eq_none_of_not_contains hk, replace_and_shift_eq hWF]
  rfl

theorem slot_at_position {c : MemoCache K V} {k : K} {i : Nat}
    (hpos : iterPosition (fun e => e.is_key k) c.buffer = some i) :
    i < c.buffer.length ∧
      ∃ w, c.buffer.getD i KeyValueSlot.Empty = KeyValueSlot.Used (k, w) := by
  obtain ⟨hlt, hkey⟩ :=
    iterPosition_spec (fun e => e.is_key k) c.buffer i KeyValueSlot.Empty hpos
  exact ⟨hlt, KeyValueSlot.eq_used_of_is_key hkey⟩

theorem insert_hit {c : MemoCache K V} {k : K} {i : Nat} (v : V)
    (hpos : iterPosition (fun e => e.is_key k) c.buffer = some i) :
    c.insert k v = some ⟨c.buffer.set i (KeyValueSlot.Used (k, v)), c.cursor⟩ := by
  obtain ⟨_, w, hw⟩ := slot_at_position hpos
  rw [insert, hpos]
  show some (MemoCache.mk
        (c.buffer.set i ((c.buffer.getD i KeyValueSlot.Empty).update_value v)) c.cursor)
      = some (MemoCache.mk (c.buffer.set i (KeyValueSlot.Used (k, v))) c.cursor)
  rw [hw]
  rfl

theorem insert_some_length {c c' : MemoCache K V} {k : K} {v : V}
    (h : c.insert k v = some c') : c'.buffer.length = c.buffer.length := by
  rw [insert] at h
  cases hpos : iterPosition (fun e => e.is_key k) c.buffer with
  | some i =>
      rw [hpos] at h
      cases h
      simp
  | none =>
      rw [hpos] at h
      by_cases hWF : c.WF
      · rw [replace_and_shift_eq hWF] at h
        cases h
        simp
      · rw [replace_and_shift_eq_none hWF] at h
        cases h

theorem insert_some_WF {c c' : MemoCache K V} {k : K} {v : V}
    (hWF : c.WF) (h : c.insert k v = some c') : c'.WF := by
  rw [insert] at h
  cases hpos : iterPosition (fun e => e.is_key k) c.buffer with
  | some i =>
      rw [hpos] at h
      cases h
      simpa [WF] using hWF
  | none =>
      rw [hpos, replace_and_shift_eq hWF] at h
      cases h
      have hlen : 0 < c.buffer.length := Nat.lt_of_le_of_lt (Nat.zero_le _) hWF
      simpa [WF] using Nat.mod_lt _ hlen

theorem insert_none_of_length_zero {c : MemoCache K V} {k : K} {v : V}
    (hlen : c.buffer.length = 0) : c.insert k v = none := by
  have hbuf : c.buffer = [] := List.length_eq_zero.mp hlen
  have hWF : ¬ c.WF := by simp [WF, hlen]
  rw [insert, hbuf]
  simp [iterPosition, replace_and_shift_eq_none hWF]

theorem get_of_position {c : MemoCache K V} {k : K} {i : Nat} {w : V}
    (hpos : iterPosition (fun e => e.is_key k) c.buffer = some i)
    (hw : c.buffer.getD i KeyValueSlot.Empty = KeyValueSlot.Used (k, w)) :
    c.get k = some w := by
  rw [get, iterFind_of_position (fun e => e.is_key k) c.buffer i KeyValueSlot.Empty hpos,
    hw]
  rfl

theorem get_eq_none_of_not_contains {c : MemoCache K V} {k : K}
    (hk : c.contains_key k = false) : c.get k = none := by
  rw [get, (iterFind_eq_none_iff _ _).mpr (contains_key_eq_false_iff.mp hk)]
  rfl

end MemoCache

/-! ## Invariant preservation -/

namespace MemoCache

variable {K V : Type}

theorem keysUnique_new (SIZE : Nat) : KeysUnique (new K V SIZE) := by
  unfold KeysUnique new
  rw [keysOf_replicate_empty]
  exact List.nodup_nil

theorem replace_some_spec {c : MemoCache K V} {k : K} {v : V}
    {p : MemoCache K V × V} (h : c.replace_and_shift k v = some p) :
    p.1.buffer = c.buffer.set c.cursor (KeyValueSlot.Used (k, v)) ∧
      p.1.cursor = (c.cursor + 1) % c.buffer.length ∧ p.2 = v ∧ c.WF := by
  by_cases hWF : c.WF
  · rw [replace_and_shift_eq hWF] at h
    cases h
    exact ⟨rfl, rfl, rfl, hWF⟩
  · rw [replace_and_shift_eq_none hWF] at h
    cases h

theorem replace_some_length {c : MemoCache K V} {k : K} {v : V}
    {p : MemoCache K V × V} (h : c.replace_and_shift k v = some p) :
    p.1.buffer.length = c.buffer.length := by
  rw [(replace_some_spec h).1, List.length_set]

theorem replace_some_WF {c : MemoCache K V} {k : K} {v : V}
    {p : MemoCache K V × V} (h : c.replace_and_shift k v = some p) : p.1.WF := by
  obtain ⟨hb, hc, _, hWF⟩ := replace_some_spec h
  have hlen : 0 < c.buffer.length := Nat.lt_of_le_of_lt (Nat.zero_le _) hWF
  unfold WF
  rw [hb, hc, List.length_set]
  exact Nat.mod_lt _ hlen

theorem clear_facts (c : MemoCache K V) :
    KeysUnique c.clear ∧ c.clear.buffer.length = c.buffer.length ∧
      c.clear.cursor = 0 := by
  refine ⟨?_, by simp [clear], rfl⟩
  unfold KeysUnique clear
  rw [keysOf_map_empty]
  exact List.nodup_nil

variable [DecidableEq K]

theorem not_mem_keysOf_of_not_contains {c : MemoCache K V} {k : K}
    (hk : c.contains_key k = false) : k ∉ keysOf c.buffer := by
  intro hmem
  rw [contains_key_eq_true_iff.mpr hmem] at hk
  cases hk

theorem contains_key_eq_false_of_position_none {c : MemoCache K V} {k : K}
    (hpos : iterPosition (fun e => e.is_key k) c.buffer = none) :
    c.contains_key k = false := by
  rw [contains_key, iterAny_eq_isSome, hpos]
  rfl

theorem replace_some_keysUnique {c : MemoCache K V} {k : K} {v : V}
    {p : MemoCache K V × V} (hu : KeysUnique c)
    (hk : c.contains_key k = false) (h : c.replace_and_shift k v = some p) :
    KeysUnique p.1 := by
  obtain ⟨hb, _, _, _⟩ := replace_some_spec h
  unfold KeysUnique
  rw [hb]
  exact nodup_keysOf_set (not_mem_keysOf_of_not_contains hk) hu

theorem insert_preserves_keysUnique {c c' : MemoCache K V} {k : K} {v : V}
    (hu : KeysUnique c) (h : c.insert k v = some c') : KeysUnique c' := by
  rw [insert] at h
  cases hpos : iterPosition (fun e => e.is_key k) c.buffer with
  | some i =>
      rw [hpos] at h
      cases h
      unfold KeysUnique
      rw [keysOf_set_same_stored_key (KeyValueSlot.stored_key_update_value _ _).symm]
      exact hu
  | none =>
      rw [hpos] at h
      cases hrep : c.replace_and_shift k v with
      | some p =>
          rw [hrep] at h
          cases h
          exact replace_some_keysUnique hu
            (contains_key_eq_false_of_position_none hpos) hrep
      | none => rw [hrep] at h; cases h

theorem gow_some_cases {c c' : MemoCache K V} {k : K} {f : K → V} {v : V}
    (h : c.get_or_insert_with k f = some (c', v)) :
    c' = c ∨ (c.contains_key k = false ∧
      c.replace_and_shift k (f k) = some (c', v)) := by
  rw [get_or_insert_with, get_key_index] at h
  cases hpos : iterPosition (fun e => e.is_key k) c.buffer with
  | some i =>
      simp only [hpos] at h
      rcases Option.map_eq_some'.mp h with ⟨w, _, hcv⟩
      cases hcv
      exact Or.inl rfl
  | none =>
      simp only [hpos] at h
      exact Or.inr ⟨contains_key_eq_false_of_position_none hpos, h⟩

theorem gtw_some_cases {E : Type} {c c' : MemoCache K V} {k : K}
    {f : K → Except E V} {r : Except E V}
    (h : c.get_or_try_insert_with k f = some (c', r)) :
    c' = c ∨ (c.contains_key k = false ∧
      ∃ v, f k = Except.ok v ∧ c.replace_and_shift k v = some (c', v)) := by
  rw [get_or_try_insert_with, get_key_index] at h
  cases hpos : iterPosition (fun e => e.is_key k) c.buffer with
  | some i =>
      simp only [hpos] at h
      rcases Option.map_eq_some'.mp h with ⟨w, _, hcv⟩
      cases hcv
      exact Or.inl rfl
  | none =>
      simp only [hpos] at h
      cases hf : f k with
      | error e =>
          rw [hf] at h
          cases h
          exact Or.inl rfl
      | ok v =>
          rw [hf] at h
          rcases Option.map_eq_some'.mp h with ⟨p, hp, heq⟩
          cases heq
          obtain ⟨_, _, hv, _⟩ := replace_some_spec hp
          refine Or.inr ⟨contains_key_eq_false_of_position_none hpos, v, rfl, ?_⟩
          rw [hp, ← hv, Prod.mk.eta]

theorem modify_buffer_facts (c : MemoCache K V) (k : K) (g : V → V) :
    keysOf (c.modify_via_get_mut k g).buffer = keysOf c.buffer ∧
      (c.modify_via_get_mut k g).buffer.length = c.buffer.length ∧
      (c.modify_via_get_mut k g).cursor = c.cursor := by
  rw [modify_via_get_mut]
  cases hpos : iterPosition (fun e => e.is_key k) c.buffer with
  | some i =>
      refine ⟨?_, by simp, rfl⟩
      exact keysOf_set_same_stored_key (KeyValueSlot.stored_key_map_value _ _).symm
  | none => exact ⟨rfl, rfl, rfl⟩

/-- Every reachable state has unique keys, and a valid cursor whenever the
capacity is positive. -/
theorem reachable_inv {c : MemoCache K V} (h : Reachable c) :
    KeysUnique c ∧ (0 < c.buffer.length → c.WF) := by
  induction h with
  | new SIZE =>
      refine ⟨keysUnique_new SIZE, fun hlen => ?_⟩
      simpa [WF, new] using hlen
  | @insert c c' k v hr hstep ih =>
      refine ⟨insert_preserves_keysUnique ih.1 hstep, fun hlen => ?_⟩
      rw [insert_some_length hstep] at hlen
      exact insert_some_WF (ih.2 hlen) hstep
  | @gow c c' k f v hr hstep ih =>
      rcases gow_some_cases hstep with rfl | ⟨hk, hrep⟩
      · exact ih
      · exact ⟨replace_some_keysUnique ih.1 hk hrep, fun _ => replace_some_WF hrep⟩
  | @gtw c c' k E f r hr hstep ih =>
      rcases gtw_some_cases hstep with rfl | ⟨hk, v, hok, hrep⟩
      · exact ih
      · exact ⟨replace_some_keysUnique ih.1 hk hrep, fun _ => replace_some_WF hrep⟩
  | @modify c k g hr ih =>
      obtain ⟨hkeys, hlen, hcur⟩ := modify_buffer_facts c k g
      refine ⟨?_, fun h0 => ?_⟩
      · unfold KeysUnique
        rw [hkeys]
        exact ih.1
      · unfold WF
        rw [hcur, hlen]
        rw [hlen] at h0
        exact ih.2 h0
  | @clear c hr ih =>
      obtain ⟨hu, hlen, hcur⟩ := clear_facts c
      refine ⟨hu, fun h0 => ?_⟩
      unfold WF
      rw [hcur, hlen]
      rwa [hlen] at h0

end MemoCache

/-! ## Filling a fresh cache with distinct keys -/

namespace MemoCache

variable {K V : Type} [DecidableEq K]

theorem insertMany_append (c : MemoCache K V) (xs ys : List (K × V)) :
    insertMany c (xs ++ ys)
      = (insertMany c xs).bind (fun c2 => insertMany c2 ys) := by
  induction xs generalizing c with
  | nil => simp [insertMany]
  | cons kv t ih =>
      rw [List.cons_append, insertMany, insertMany]
      cases c.insert kv.1 kv.2 with
      | some c2 => simp [ih c2]
      | none => simp

theorem pairFind_mem_nodup {l : List (K × V)} {kv : K × V}
    (hnd : (l.map Prod.fst).Nodup) (hmem : kv ∈ l) :
    iterFind (fun p => decide (kv.1 = p.1)) l = some kv := by
  induction l with
  | nil => cases hmem
  | cons a t ih =>
      rcases List.mem_cons.mp hmem with rfl | hmem
      · simp [iterFind]
      · have ha : a.1 ∉ t.map Prod.fst := by
          rw [List.map_cons, List.nodup_cons] at hnd
          exact hnd.1
        have hne : kv.1 ≠ a.1 := by
          intro he
          exact ha (he ▸ List.mem_map_of_mem Prod.fst hmem)
        have hndt : (t.map Prod.fst).Nodup := by
          rw [List.map_cons, List.nodup_cons] at hnd
          exact hnd.2
        rw [iterFind, if_neg (by simp [hne])]
        exact ih hndt hmem

theorem pairFind_not_mem {l : List (K × V)} {k : K}
    (h : k ∉ l.map Prod.fst) :
    iterFind (fun p => decide (k = p.1)) l = none := by
  rw [iterFind_eq_none_iff]
  intro p hp
  have : k ≠ p.1 := fun he => h (he ▸ List.mem_map_of_mem Prod.fst hp)
  simp [this]

theorem get_fill (l : List (K × V)) (m cur : Nat) (k : K) :
    get ⟨l.map (fun kv => KeyValueSlot.Used kv)
          ++ List.replicate m KeyValueSlot.Empty, cur⟩ k
      = (iterFind (fun p => decide (k = p.1)) l).map Prod.snd := by
  induction l with
  | nil =>
      rw [get]
      have hnone : iterFind (fun e => KeyValueSlot.is_key e k)
          (List.replicate m (KeyValueSlot.Empty : KeyValueSlot K V)) = none := by
        rw [iterFind_eq_none_iff]
        intro s hs
        rw [List.eq_of_mem_replicate hs]
        rfl
      simp [hnone, iterFind]
  | cons a t ih =>
      by_cases hk : k = a.1
      · rw [get]
        simp [iterFind, KeyValueSlot.is_key, hk, KeyValueSlot.get_value]
      · rw [get] at ih ⊢
        simp only [List.map_cons, List.cons_append, iterFind, KeyValueSlot.is_key]
        rw [if_neg (by simp [hk]), if_neg (by simp [hk])]
        exact ih

theorem listSet_append_left_of_eq {α : Type} (a b : List α) (x : α) (n : Nat)
    (h : n = a.length) : (a ++ b).set n x = a ++ b.set 0 x := by
  subst h
  exact listSet_append_left_length a b x

theorem insertMany_fill (N : Nat) (todo : List (K × V)) :
    ∀ (done : List (K × V)),
      ((done ++ todo).map Prod.fst).Nodup →
      done.length + todo.length ≤ N →
      insertMany ⟨(done.map (fun kv => KeyValueSlot.Used kv))
                    ++ List.replicate (N - done.length) KeyValueSlot.Empty,
                  done.length % N⟩ todo
        = some ⟨((done ++ todo).map (fun kv => KeyValueSlot.Used kv))
                  ++ List.replicate (N - (done.length + todo.length)) KeyValueSlot.Empty,
                (done.length + todo.length) % N⟩ := by
  induction todo with
  | nil =>
      intro done hnd hlen
      simp [insertMany]
  | cons kv rest ih =>
      intro done hnd hlen
      simp only [List.length_cons] at hlen
      have hdlt : done.length < N := by omega
      have hm : N - done.length = (N - (done.length + 1)) + 1 := by omega
      set c0 : MemoCache K V :=
        ⟨(done.map (fun kv => KeyValueSlot.Used kv))
           ++ List.replicate (N - done.length) KeyValueSlot.Empty,
         done.length % N⟩ with hc0
      have hbuf : c0.buffer = (done.map (fun kv => KeyValueSlot.Used kv))
          ++ List.replicate (N - done.length) KeyValueSlot.Empty := by rw [hc0]
      have hbuflen : ((done.map (fun kv => KeyValueSlot.Used kv))
          ++ List.replicate (N - done.length)
              (KeyValueSlot.Empty : KeyValueSlot K V)).length = N := by
        rw [List.length_append, List.length_map, List.length_replicate]
        omega
      have hcurD : c0.cursor = done.length := by
        rw [hc0]
        exact Nat.mod_eq_of_lt hdlt
      have hknotin : kv.1 ∉ done.map Prod.fst := by
        rw [List.map_append, List.nodup_append] at hnd
        intro hmem
        exact hnd.2.2 hmem (by simp)
      have hWF : c0.WF := by
        show c0.cursor < c0.buffer.length
        rw [hcurD, hbuf, hbuflen]
        exact hdlt
      have hcontains : c0.contains_key kv.1 = false := by
        rw [contains_key_eq_false_iff]
        intro s hs
        rw [hbuf] at hs
        rcases List.mem_append.mp hs with hs | hs
        · obtain ⟨p, hp, rfl⟩ := List.mem_map.mp hs
          have hne : kv.1 ≠ p.1 := fun he =>
            hknotin (he ▸ List.mem_map_of_mem Prod.fst hp)
          simp [KeyValueSlot.is_key, hne]
        · rw [List.eq_of_mem_replicate hs]
          rfl
      have hstep := insert_miss kv.2 hcontains hWF
      have hb2 : c0.buffer.set c0.cursor (KeyValueSlot.Used (kv.1, kv.2))
          = ((done ++ [kv]).map (fun kv => KeyValueSlot.Used kv))
              ++ List.replicate (N - (done.length + 1)) KeyValueSlot.Empty := by
        rw [hbuf, hcurD, listSet_append_left_of_eq _ _ _ _ (by simp),
          hm, List.replicate_succ, List.set_cons_zero]
        simp
      have hc2 : (c0.cursor + 1) % c0.buffer.length = (done.length + 1) % N := by
        rw [hcurD, hbuf, hbuflen]
      rw [insertMany, hstep, Option.some_bind, hb2, hc2]
      have hgoal := ih (done ++ [kv])
        (by rwa [List.append_assoc, List.singleton_append])
        (by rw [List.length_append, List.length_singleton]; omega)
      simp only [List.length_append, List.length_singleton] at hgoal
      rw [hgoal]
      have heq1 : (done ++ [kv]) ++ rest = done ++ kv :: rest := by
        rw [List.append_assoc, List.singleton_append]
      have heq2 : done.length + 1 + rest.length
          = done.length + (kv :: rest).length := by
        simp only [List.length_cons]
        omega
      rw [heq1, heq2]

end MemoCache

/-! ## Claim theorems -/

namespace MemoCache

variable {K V : Type} [DecidableEq K]

/-- C2: for every capacity N and every sequence of at most N insertions of
pairwise-distinct keys into a fresh cache, every inserted key is afterwards
retrievable via get with the value that was inserted for it. -/
theorem claim_C2 (N : Nat) (kvs : List (K × V)) (hlen : kvs.length ≤ N)
    (hnd : (kvs.map Prod.fst).Nodup) :
    ∃ c', insertMany (MemoCache.new K V N) kvs = some c' ∧
      ∀ kv ∈ kvs, c'.get kv.1 = some kv.2 := by
  have hfill := insertMany_fill N kvs [] (by simpa using hnd) (by simpa using hlen)
  simp only [List.map_nil, List.nil_append, List.length_nil, Nat.zero_add,
    Nat.zero_mod, Nat.sub_zero] at hfill
  refine ⟨_, hfill, ?_⟩
  intro kv hkv
  rw [get_fill, pairFind_mem_nodup hnd hkv]
  rfl

/-- C2 witness: a concrete instance of the hypotheses and conclusion, at
capacity 2 with two distinct insertions. -/
theorem claim_C2_witness :
    ([((0 : Nat), (10 : Nat)), (1, 11)].length ≤ 2 ∧
      ([((0 : Nat), (10 : Nat)), (1, 11)].map Prod.fst).Nodup) ∧
    (∃ c', insertMany (MemoCache.new Nat Nat 2) [(0, 10), (1, 11)] = some c' ∧
      ∀ kv ∈ [((0 : Nat), (10 : Nat)), (1, 11)], c'.get kv.1 = some kv.2) :=
  ⟨⟨by decide, by decide⟩, claim_C2 2 [(0, 10), (1, 11)] (by decide) (by decide)⟩

/-- C1: FIFO eviction. For capacity N ≥ 1 and N+1 insertions of pairwise
distinct keys kv₀ :: rest into a fresh cache, afterwards the first key is
absent and every key of rest maps to its inserted value. -/
theorem claim_C1 (N : Nat) (hN : 1 ≤ N) (kv₀ : K × V) (rest : List (K × V))
    (hlen : rest.length = N) (hnd : (((kv₀ :: rest)).map Prod.fst).Nodup) :
    ∃ c', insertMany (MemoCache.new K V N) (kv₀ :: rest) = some c' ∧
      c'.get kv₀.1 = none ∧ ∀ kv ∈ rest, c'.get kv.1 = some kv.2 := by
  have hne : rest ≠ [] := by
    intro h
    rw [h] at hlen
    simp at hlen
    omega
  obtain ⟨front, last, hsplit⟩ : ∃ front last, rest = front ++ [last] :=
    ⟨rest.dropLast, rest.getLast hne, (List.dropLast_append_getLast hne).symm⟩
  have hfrontlen : front.length = N - 1 := by
    have : rest.length = front.length + 1 := by rw [hsplit]; simp
    omega
  have hlist : kv₀ :: rest = (kv₀ :: front) ++ [last] := by
    rw [hsplit]
    rfl
  have hndfull : (((kv₀ :: front) ++ [last]).map Prod.fst).Nodup := by
    rwa [hlist] at hnd
  have hndleft : ((kv₀ :: front).map Prod.fst).Nodup := by
    rw [List.map_append, List.nodup_append] at hndfull
    exact hndfull.1
  have hdisj : last.1 ∉ (kv₀ :: front).map Prod.fst := by
    rw [List.map_append, List.nodup_append] at hndfull
    intro hmem
    exact hndfull.2.2 hmem (by simp)
  have hNlen : (kv₀ :: front).length = N := by
    simp [hfrontlen]
    omega
  have hfill := insertMany_fill N (kv₀ :: front) []
    (by simpa using hndleft) (by simp [hNlen])
  simp only [List.map_nil, List.nil_append, List.length_nil, Nat.zero_add,
    Nat.zero_mod, Nat.sub_zero, hNlen, Nat.sub_self, List.replicate_zero,
    List.append_nil, Nat.mod_self] at hfill
  set c1 : MemoCache K V :=
    ⟨(kv₀ :: front).map (fun kv => KeyValueSlot.Used kv), 0⟩ with hc1
  have hc1buf : c1.buffer = (kv₀ :: front).map (fun kv => KeyValueSlot.Used kv) := by
    rw [hc1]
  have hc1cur : c1.cursor = 0 := by rw [hc1]
  have hc1len : c1.buffer.length = N := by
    rw [hc1buf, List.length_map, hNlen]
  have hWF1 : c1.WF := by
    show c1.cursor < c1.buffer.length
    rw [hc1cur, hc1len]
    omega
  have hcont1 : c1.contains_key last.1 = false := by
    rw [contains_key_eq_false_iff]
    intro e he
    rw [hc1buf] at he
    obtain ⟨p, hp, rfl⟩ := List.mem_map.mp he
    have hne2 : last.1 ≠ p.1 := fun heq =>
      hdisj (heq ▸ List.mem_map_of_mem Prod.fst hp)
    simp [KeyValueSlot.is_key, hne2]
  have hstep2 := insert_miss last.2 hcont1 hWF1
  have hb2 : c1.buffer.set c1.cursor (KeyValueSlot.Used (last.1, last.2))
      = (last :: front).map (fun kv => KeyValueSlot.Used kv) := by
    rw [hc1buf, hc1cur, List.map_cons, List.set_cons_zero, List.map_cons]
  have hcur2 : (c1.cursor + 1) % c1.buffer.length = 1 % N := by
    rw [hc1cur, hc1len]
  refine ⟨⟨(last :: front).map (fun kv => KeyValueSlot.Used kv), 1 % N⟩, ?_, ?_, ?_⟩
  · have hnew : MemoCache.new K V N
        = ⟨List.replicate N KeyValueSlot.Empty, 0⟩ := rfl
    rw [hlist, insertMany_append, hnew, hfill, Option.some_bind, insertMany, hstep2,
      Option.some_bind, hb2, hcur2, insertMany]
  · have hg := get_fill (last :: front) 0 (1 % N) kv₀.1
    simp only [List.replicate_zero, List.append_nil] at hg
    rw [hg, pairFind_not_mem ?_]
    · rfl
    · intro hmem
      have hk0 : kv₀.1 ∉ rest.map Prod.fst := by
        rw [List.map_cons, List.nodup_cons] at hnd
        exact hnd.1
      apply hk0
      rw [hsplit, List.map_append]
      rw [List.map_cons] at hmem
      rcases List.mem_cons.mp hmem with h1 | h1
      · exact List.mem_append.mpr (Or.inr (by simp [h1]))
      · exact List.mem_append.mpr (Or.inl h1)
  · intro kv hkv
    have hperm : (front ++ [last]).Perm (last :: front) := List.perm_append_singleton _ _
    have hndlast : ((last :: front).map Prod.fst).Nodup := by
      have hndrest : (rest.map Prod.fst).Nodup := by
        rw [List.map_cons, List.nodup_cons] at hnd
        exact hnd.2
      rw [hsplit] at hndrest
      exact ((hperm.map Prod.fst).nodup_iff).mp hndrest
    have hmem2 : kv ∈ last :: front := by
      rw [hsplit] at hkv
      exact hperm.mem_iff.mp hkv
    have hg := get_fill (last :: front) 0 (1 % N) kv.1
    simp only [List.replicate_zero, List.append_nil] at hg
    rw [hg, pairFind_mem_nodup hndlast hmem2]
    rfl

/-- C1 witness: capacity 1, two distinct insertions; the first key is
evicted, the second retrievable. -/
theorem claim_C1_witness :
    (1 ≤ 1 ∧ [((1 : Nat), (11 : Nat))].length = 1 ∧
      ((((0 : Nat), (10 : Nat)) :: [(1, 11)]).map Prod.fst).Nodup) ∧
    (∃ c', insertMany (MemoCache.new Nat Nat 1) ((0, 10) :: [(1, 11)]) = some c' ∧
      c'.get (0, 10).1 = none ∧ ∀ kv ∈ [((1 : Nat), (11 : Nat))], c'.get kv.1 = some kv.2) :=
  ⟨⟨by decide, by decide, by decide⟩,
    claim_C1 1 (by decide) (0, 10) [(1, 11)] (by decide) (by decide)⟩

end MemoCache

namespace MemoCache

variable {K V : Type} [DecidableEq K]

theorem contains_key_congr {c c' : MemoCache K V}
    (h : keysOf c'.buffer = keysOf c.buffer) (q : K) :
    c'.contains_key q = c.contains_key q := by
  cases hq : c.contains_key q with
  | true => exact contains_key_eq_true_iff.mpr (h ▸ contains_key_eq_true_iff.mp hq)
  | false =>
      cases hq2 : c'.contains_key q with
      | false => rfl
      | true =>
          have hmem := contains_key_eq_true_iff.mp hq2
          rw [h] at hmem
          rw [contains_key_eq_true_iff.mpr hmem] at hq
          cases hq

/-- C3: inserting a key already present overwrites only the value in that
slot; the slot position and key, every other slot, and the cursor are
unchanged, and no existing key is evicted. -/
theorem claim_C3 (c : MemoCache K V) (k : K) (v : V)
    (h : c.contains_key k = true) :
    ∃ c' i w, c.insert k v = some c' ∧
      c'.cursor = c.cursor ∧
      i < c.buffer.length ∧
      c.buffer.getD i KeyValueSlot.Empty = KeyValueSlot.Used (k, w) ∧
      c'.buffer.getD i KeyValueSlot.Empty = KeyValueSlot.Used (k, v) ∧
      (∀ j, j ≠ i →
        c'.buffer.getD j KeyValueSlot.Empty = c.buffer.getD j KeyValueSlot.Empty) ∧
      (∀ q, c'.contains_key q = c.contains_key q) := by
  have hsome : (iterPosition (fun e => e.is_key k) c.buffer).isSome := by
    rw [← iterAny_eq_isSome]
    exact h
  obtain ⟨i, hpos⟩ := Option.isSome_iff_exists.mp hsome
  obtain ⟨hlt, w, hw⟩ := slot_at_position hpos
  refine ⟨_, i, w, insert_hit v hpos, rfl, hlt, hw, ?_, ?_, ?_⟩
  · exact listGetD_set_self _ _ _ _ hlt
  · intro j hj
    exact listGetD_set_ne _ _ _ _ _ hj
  · intro q
    refine contains_key_congr ?_ q
    show keysOf (c.buffer.set i (KeyValueSlot.Used (k, v))) = keysOf c.buffer
    refine keysOf_set_same_stored_key ?_
    rw [hw]
    rfl

/-- C3 witness: a two-slot cache holding key 1; inserting 1 with a new value
updates in place. -/
theorem claim_C3_witness :
    (MemoCache.mk [KeyValueSlot.Used ((1 : Nat), (5 : Nat)), KeyValueSlot.Empty]
        0).contains_key 1 = true ∧
    (∃ c' i w,
      (MemoCache.mk [KeyValueSlot.Used ((1 : Nat), (5 : Nat)), KeyValueSlot.Empty]
          0).insert 1 7 = some c' ∧
      c'.cursor = (MemoCache.mk [KeyValueSlot.Used ((1 : Nat), (5 : Nat)),
          KeyValueSlot.Empty] 0).cursor ∧
      i < (MemoCache.mk [KeyValueSlot.Used ((1 : Nat), (5 : Nat)),
          KeyValueSlot.Empty] 0).buffer.length ∧
      (MemoCache.mk [KeyValueSlot.Used ((1 : Nat), (5 : Nat)),
          KeyValueSlot.Empty] 0).buffer.getD i KeyValueSlot.Empty
        = KeyValueSlot.Used (1, w) ∧
      c'.buffer.getD i KeyValueSlot.Empty = KeyValueSlot.Used (1, 7) ∧
      (∀ j, j ≠ i → c'.buffer.getD j KeyValueSlot.Empty
        = (MemoCache.mk [KeyValueSlot.Used ((1 : Nat), (5 : Nat)),
            KeyValueSlot.Empty] 0).buffer.getD j KeyValueSlot.Empty) ∧
      (∀ q, c'.contains_key q
        = (MemoCache.mk [KeyValueSlot.Used ((1 : Nat), (5 : Nat)),
            KeyValueSlot.Empty] 0).contains_key q)) :=
  ⟨by decide, claim_C3 _ 1 7 (by decide)⟩

/-- C4: when the key is absent and the callback fails, get_or_try_insert_with
returns the error unmodified and the cache state is exactly as before. -/
theorem claim_C4 {E : Type} (c : MemoCache K V) (k : K) (f : K → Except E V)
    (e : E) (hk : c.contains_key k = false) (hf : f k = Except.error e) :
    c.get_or_try_insert_with k f = some (c, Except.error e) := by
  simp only [get_or_try_insert_with, get_key_index,
    position_eq_none_of_not_contains hk, hf]

/-- C4 witness: a fresh cache, a failing callback; the error is returned and
the cache is unchanged. -/
theorem claim_C4_witness :
    (MemoCache.new Nat Nat 2).contains_key 0 = false ∧
    (fun (_ : Nat) => (Except.error 7 : Except Nat Nat)) 0 = Except.error 7 ∧
    (MemoCache.new Nat Nat 2).get_or_try_insert_with 0
        (fun _ => (Except.error 7 : Except Nat Nat))
      = some (MemoCache.new Nat Nat 2, Except.error 7) :=
  ⟨by decide, rfl,
    claim_C4 (MemoCache.new Nat Nat 2) 0 (fun _ => Except.error 7) 7 (by decide) rfl⟩

/-- C5 counterexample: the claim quantifies over every cache state, but at
the constructible capacity-0 fresh cache with an absent key the miss path of
get_or_insert_with faults — `get_unchecked_mut(0)` on an empty buffer —
modelled as `none`, so no freshly computed value is inserted or returned. -/
theorem claim_C5_counterexample :
    (MemoCache.new Nat Nat 0).contains_key 0 = false ∧
    (MemoCache.new Nat Nat 0).get_or_insert_with 0 (fun _ => 9) = none := by
  decide

/-- C5 (amended): for every well-formed cache state (cursor a valid slot
index, as in every reachable state of positive capacity): on a present key,
get_or_insert_with never invokes the callback (empty call trace) and returns
the previously stored value; on an absent key it invokes the callback exactly
once (trace [k]), inserts through the eviction path replace_and_shift, and
returns the freshly computed value. -/
theorem claim_C5_amended (c : MemoCache K V) (k : K) (f : K → V) (hWF : c.WF) :
    ((get_or_insert_with_traced c k f).1 = c.get_or_insert_with k f) ∧
    (c.contains_key k = true →
      (get_or_insert_with_traced c k f).2 = [] ∧
      ∃ v, c.get k = some v ∧ c.get_or_insert_with k f = some (c, v)) ∧
    (c.contains_key k = false →
      (get_or_insert_with_traced c k f).2 = [k] ∧
      c.get_or_insert_with k f = c.replace_and_shift k (f k) ∧
      ∃ c', c.replace_and_shift k (f k) = some (c', f k)) := by
  refine ⟨?_, ?_, ?_⟩
  · cases hpos : c.get_key_index k with
    | some i => simp only [get_or_insert_with_traced, get_or_insert_with, hpos]
    | none => simp only [get_or_insert_with_traced, get_or_insert_with, hpos]
  · intro hk
    have hsome : (iterPosition (fun e => e.is_key k) c.buffer).isSome := by
      rw [← iterAny_eq_isSome]
      exact hk
    obtain ⟨i, hpos⟩ := Option.isSome_iff_exists.mp hsome
    obtain ⟨hlt, w, hw⟩ := slot_at_position hpos
    constructor
    · simp only [get_or_insert_with_traced, get_key_index, hpos]
    · refine ⟨w, get_of_position hpos hw, ?_⟩
      simp only [get_or_insert_with, get_key_index, hpos, hw]
      rfl
  · intro hk
    have hpos := position_eq_none_of_not_contains hk
    refine ⟨?_, ?_, ?_⟩
    · simp only [get_or_insert_with_traced, get_key_index, hpos]
    · simp only [get_or_insert_with, get_or_insert_with_traced, get_key_index, hpos]
    · rw [replace_and_shift_eq hWF]
      exact ⟨_, rfl⟩

/-- C5 witness: a one-slot well-formed cache holding key 1, with a concrete
callback; the theorem is applied twice — at the present key 1 (hit branch)
and at the absent key 2 (miss branch) — so both implications are exercised
with their antecedents holding. -/
theorem claim_C5_amended_witness :
    (MemoCache.mk [KeyValueSlot.Used ((1 : Nat), (5 : Nat))] 0).WF ∧
    (MemoCache.mk [KeyValueSlot.Used ((1 : Nat), (5 : Nat))] 0).contains_key 1 = true ∧
    (MemoCache.mk [KeyValueSlot.Used ((1 : Nat), (5 : Nat))] 0).contains_key 2 = false ∧
    (((get_or_insert_with_traced
          (MemoCache.mk [KeyValueSlot.Used ((1 : Nat), (5 : Nat))] 0) 1
          (fun _ => 9)).1
        = (MemoCache.mk [KeyValueSlot.Used ((1 : Nat), (5 : Nat))] 0).get_or_insert_with
            1 (fun _ => 9)) ∧
      ((MemoCache.mk [KeyValueSlot.Used ((1 : Nat), (5 : Nat))] 0).contains_key 1 = true →
        (get_or_insert_with_traced
            (MemoCache.mk [KeyValueSlot.Used ((1 : Nat), (5 : Nat))] 0) 1
            (fun _ => 9)).2 = [] ∧
        ∃ v, (MemoCache.mk [KeyValueSlot.Used ((1 : Nat), (5 : Nat))] 0).get 1 = some v ∧
          (MemoCache.mk [KeyValueSlot.Used ((1 : Nat), (5 : Nat))] 0).get_or_insert_with
              1 (fun _ => 9)
            = some (MemoCache.mk [KeyValueSlot.Used ((1 : Nat), (5 : Nat))] 0, v)) ∧
      ((MemoCache.mk [KeyValueSlot.Used ((1 : Nat), (5 : Nat))] 0).contains_key 1 = false →
        (get_or_insert_with_traced
            (MemoCache.mk [KeyValueSlot.Used ((1 : Nat), (5 : Nat))] 0) 1
            (fun _ => 9)).2 = [1] ∧
        (MemoCache.mk [KeyValueSlot.Used ((1 : Nat), (5 : Nat))] 0).get_or_insert_with
            1 (fun _ => 9)
          = (MemoCache.mk [KeyValueSlot.Used ((1 : Nat), (5 : Nat))] 0).replace_and_shift
              1 ((fun _ => 9) 1) ∧
        ∃ c', (MemoCache.mk [KeyValueSlot.Used ((1 : Nat), (5 : Nat))] 0).replace_and_shift
            1 ((fun _ => 9) 1) = some (c', (fun _ => 9) 1))) ∧
    (((get_or_insert_with_traced
          (MemoCache.mk [KeyValueSlot.Used ((1 : Nat), (5 : Nat))] 0) 2
          (fun _ => 9)).1
        = (MemoCache.mk [KeyValueSlot.Used ((1 : Nat), (5 : Nat))] 0).get_or_insert_with
            2 (fun _ => 9)) ∧
      ((MemoCache.mk [KeyValueSlot.Used ((1 : Nat), (5 : Nat))] 0).contains_key 2 = true →
        (get_or_insert_with_traced
            (MemoCache.mk [KeyValueSlot.Used ((1 : Nat), (5 : Nat))] 0) 2
            (fun _ => 9)).2 = [] ∧
        ∃ v, (MemoCache.mk [KeyValueSlot.Used ((1 : Nat), (5 : Nat))] 0).get 2 = some v ∧
          (MemoCache.mk [KeyValueSlot.Used ((1 : Nat), (5 : Nat))] 0).get_or_insert_with
              2 (fun _ => 9)
            = some (MemoCache.mk [KeyValueSlot.Used ((1 : Nat), (5 : Nat))] 0, v)) ∧
      ((MemoCache.mk [KeyValueSlot.Used ((1 : Nat), (5 : Nat))] 0).contains_key 2 = false →
        (get_or_insert_with_traced
            (MemoCache.mk [KeyValueSlot.Used ((1 : Nat), (5 : Nat))] 0) 2
            (fun _ => 9)).2 = [2] ∧
        (MemoCache.mk [KeyValueSlot.Used ((1 : Nat), (5 : Nat))] 0).get_or_insert_with
            2 (fun _ => 9)
          = (MemoCache.mk [KeyValueSlot.Used ((1 : Nat), (5 : Nat))] 0).replace_and_shift
              2 ((fun _ => 9) 2) ∧
        ∃ c', (MemoCache.mk [KeyValueSlot.Used ((1 : Nat), (5 : Nat))] 0).replace_and_shift
            2 ((fun _ => 9) 2) = some (c', (fun _ => 9) 2))) :=
  ⟨by decide, by decide, by decide,
    claim_C5_amended (MemoCache.mk [KeyValueSlot.Used (1, 5)] 0) 1 (fun _ => 9)
      (by decide),
    claim_C5_amended (MemoCache.mk [KeyValueSlot.Used (1, 5)] 0) 2 (fun _ => 9)
      (by decide)⟩

/-- C6: if the cache already maps k to v, inserting (k, v) any number of
times leaves the entire cache state (buffer and cursor) unchanged. -/
theorem claim_C6 (c : MemoCache K V) (k : K) (v : V)
    (h : c.get k = some v) (n : Nat) :
    insertMany c (List.replicate n (k, v)) = some c := by
  have hone : c.insert k v = some c := by
    cases hpos : iterPosition (fun e => e.is_key k) c.buffer with
    | none =>
        have hfind := (iterFind_eq_none_iff _ _).mpr
          ((iterPosition_eq_none_iff _ _).mp hpos)
        rw [get, hfind] at h
        cases h
    | some i =>
        obtain ⟨hlt, w, hw⟩ := slot_at_position hpos
        have hval : w = v := by
          have := get_of_position hpos hw
          rw [this] at h
          cases h
          rfl
        have hins := insert_hit v hpos
        rw [hins]
        subst hval
        rw [← hw, listSet_getD_self _ _ _ hlt]
  induction n with
  | zero => rw [List.replicate_zero, insertMany]
  | succ m ih =>
      rw [List.replicate_succ, insertMany]
      show (c.insert k v).bind
          (fun c2 => insertMany c2 (List.replicate m (k, v))) = some c
      rw [hone, Option.some_bind, ih]

/-- C6 witness: a cache holding (1, 5); inserting (1, 5) three more times
leaves it unchanged. -/
theorem claim_C6_witness :
    (MemoCache.mk [KeyValueSlot.Used ((1 : Nat), (5 : Nat))] 0).get 1 = some 5 ∧
    insertMany (MemoCache.mk [KeyValueSlot.Used ((1 : Nat), (5 : Nat))] 0)
        (List.replicate 3 (1, 5))
      = some (MemoCache.mk [KeyValueSlot.Used ((1 : Nat), (5 : Nat))] 0) :=
  ⟨by decide, claim_C6 (MemoCache.mk [KeyValueSlot.Used (1, 5)] 0) 1 5 (by decide) 3⟩

/-- C10: when the key is present, get_or_insert_with and
get_or_try_insert_with return the stored value and leave the cache state
(every slot and the cursor) exactly unchanged. -/
theorem claim_C10 {E : Type} (c : MemoCache K V) (k : K) (f : K → V)
    (fe : K → Except E V) (h : c.contains_key k = true) :
    (∃ v, c.get_or_insert_with k f = some (c, v)) ∧
    (∃ v, c.get_or_try_insert_with k fe = some (c, Except.ok v)) := by
  have hsome : (iterPosition (fun e => e.is_key k) c.buffer).isSome := by
    rw [← iterAny_eq_isSome]
    exact h
  obtain ⟨i, hpos⟩ := Option.isSome_iff_exists.mp hsome
  obtain ⟨hlt, w, hw⟩ := slot_at_position hpos
  constructor
  · refine ⟨w, ?_⟩
    simp only [get_or_insert_with, get_key_index, hpos, hw]
    rfl
  · refine ⟨w, ?_⟩
    simp only [get_or_try_insert_with, get_key_index, hpos, hw]
    rfl

/-- C10 witness: a one-slot cache holding key 1; both compute-on-miss entry
points return the stored value 5 with the state unchanged. -/
theorem claim_C10_witness :
    (MemoCache.mk [KeyValueSlot.Used ((1 : Nat), (5 : Nat))] 0).contains_key 1 = true ∧
    ((∃ v, (MemoCache.mk [KeyValueSlot.Used ((1 : Nat), (5 : Nat))] 0).get_or_insert_with
          1 (fun _ => 9)
        = some (MemoCache.mk [KeyValueSlot.Used ((1 : Nat), (5 : Nat))] 0, v)) ∧
      (∃ v, (MemoCache.mk [KeyValueSlot.Used ((1 : Nat), (5 : Nat))] 0).get_or_try_insert_with
          1 (fun _ => (Except.ok 9 : Except Nat Nat))
        = some (MemoCache.mk [KeyValueSlot.Used ((1 : Nat), (5 : Nat))] 0, Except.ok v))) :=
  ⟨by decide,
    claim_C10 (MemoCache.mk [KeyValueSlot.Used (1, 5)] 0) 1 (fun _ => 9)
      (fun _ => Except.ok 9) (by decide)⟩

/-- C7 counterexample: the claim includes capacity N = 0, but there the
new-key insertion path faults — the unchecked slot access
`get_unchecked_mut(0)` hits an empty buffer (and `% 0` would follow) — so
`insert` is not total at N = 0; the model yields `none` (the fault). -/
theorem claim_C7_counterexample : (MemoCache.new Nat Nat 0).insert 0 0 = none := by
  decide

/-- C7 (amended): for every capacity N ≥ 1 and every well-formed cache state
(cursor in bounds — true of all reachable states of positive capacity), the
operations never fault: insert, get_or_insert_with and the internal
replace_and_shift always return a state, and get_or_try_insert_with always
returns a result, surfacing errors only inside the Except; get, get_mut,
contains_key and clear are total functions of the model outright. -/
theorem claim_C7_amended {E : Type} (c : MemoCache K V) (hWF : c.WF) (k : K)
    (v : V) (f : K → V) (fe : K → Except E V) :
    (c.insert k v).isSome = true ∧
    (c.get_or_insert_with k f).isSome = true ∧
    (c.get_or_try_insert_with k fe).isSome = true ∧
    (c.replace_and_shift k v).isSome = true := by
  refine ⟨?_, ?_, ?_, by rw [replace_and_shift_eq hWF]; rfl⟩
  · cases hpos : iterPosition (fun e => e.is_key k) c.buffer with
    | some i => rw [insert_hit v hpos]; rfl
    | none =>
        rw [insert, hpos, replace_and_shift_eq hWF]
        rfl
  · cases hpos : iterPosition (fun e => e.is_key k) c.buffer with
    | some i =>
        obtain ⟨hlt, w, hw⟩ := slot_at_position hpos
        simp only [get_or_insert_with, get_key_index, hpos, hw]
        rfl
    | none =>
        simp only [get_or_insert_with, get_key_index, hpos,
          replace_and_shift_eq hWF]
        rfl
  · cases hpos : iterPosition (fun e => e.is_key k) c.buffer with
    | some i =>
        obtain ⟨hlt, w, hw⟩ := slot_at_position hpos
        simp only [get_or_try_insert_with, get_key_index, hpos, hw]
        rfl
    | none =>
        cases hf : fe k with
        | error e =>
            simp only [get_or_try_insert_with, get_key_index, hpos, hf]
            rfl
        | ok w =>
            simp only [get_or_try_insert_with, get_key_index, hpos, hf,
              replace_and_shift_eq hWF]
            rfl

/-- C7 witness: a fresh one-slot cache with concrete callbacks. -/
theorem claim_C7_amended_witness :
    (MemoCache.new Nat Nat 1).WF ∧
    (((MemoCache.new Nat Nat 1).insert 0 0).isSome = true ∧
      ((MemoCache.new Nat Nat 1).get_or_insert_with 0 (fun _ => 0)).isSome = true ∧
      ((MemoCache.new Nat Nat 1).get_or_try_insert_with 0
          (fun _ => (Except.ok 0 : Except Nat Nat))).isSome = true ∧
      ((MemoCache.new Nat Nat 1).replace_and_shift 0 0).isSome = true) :=
  ⟨by decide,
    claim_C7_amended (MemoCache.new Nat Nat 1) (by decide) 0 0 (fun _ => 0)
      (fun _ => Except.ok 0)⟩

/-- C8: in every cache state reachable from a fresh cache by insert,
get_or_insert_with, get_or_try_insert_with, writes through get_mut and
clear, at most one slot holds any given key. -/
theorem claim_C8 (c : MemoCache K V) (h : Reachable c) : KeysUnique c :=
  (reachable_inv h).1

/-- C8 witness: the state reached from a fresh two-slot cache by one insert
is reachable and has unique keys. -/
theorem claim_C8_witness :
    Reachable (MemoCache.mk [KeyValueSlot.Used ((1 : Nat), (5 : Nat)),
        KeyValueSlot.Empty] 1) ∧
    KeysUnique (MemoCache.mk [KeyValueSlot.Used ((1 : Nat), (5 : Nat)),
        KeyValueSlot.Empty] 1) :=
  have hstep : (MemoCache.new Nat Nat 2).insert 1 5
      = some (MemoCache.mk [KeyValueSlot.Used (1, 5), KeyValueSlot.Empty] 1) := by
    decide
  have hr := Reachable.insert (Reachable.new 2) hstep
  ⟨hr, claim_C8 _ hr⟩

/-- C9 counterexample: the claim covers the fresh state at every capacity,
but at capacity 0 the cursor (0) is not a valid slot index — the interval
[0, 0) is empty. -/
theorem claim_C9_counterexample :
    ¬ ((MemoCache.new Nat Nat 0).cursor < (MemoCache.new Nat Nat 0).capacity) := by
  decide

/-- C9 (amended): in every reachable cache state of positive capacity, the
cursor is a valid slot index in [0, N), and the slot at the cursor is exactly
the one overwritten by the next new-key insertion (which then advances the
cursor modulo N). -/
theorem claim_C9_amended (c : MemoCache K V) (h : Reachable c)
    (hpos : 0 < c.capacity) :
    c.cursor < c.capacity ∧
    ∀ k v, c.contains_key k = false →
      c.insert k v = some ⟨c.buffer.set c.cursor (KeyValueSlot.Used (k, v)),
                           (c.cursor + 1) % c.buffer.length⟩ := by
  have hWF : c.WF := (reachable_inv h).2 hpos
  exact ⟨hWF, fun k v hk => insert_miss v hk hWF⟩

/-- C9 witness: the fresh two-slot cache is reachable with positive capacity;
its cursor is in bounds and a miss-insert overwrites slot 0. -/
theorem claim_C9_witness :
    Reachable (MemoCache.new Nat Nat 2) ∧ 0 < (MemoCache.new Nat Nat 2).capacity ∧
    ((MemoCache.new Nat Nat 2).cursor < (MemoCache.new Nat Nat 2).capacity ∧
      ∀ k v, (MemoCache.new Nat Nat 2).contains_key k = false →
        (MemoCache.new Nat Nat 2).insert k v
          = some ⟨(MemoCache.new Nat Nat 2).buffer.set
                    (MemoCache.new Nat Nat 2).cursor (KeyValueSlot.Used (k, v)),
                  ((MemoCache.new Nat Nat 2).cursor + 1)
                    % (MemoCache.new Nat Nat 2).buffer.length⟩) :=
  ⟨Reachable.new 2, by decide,
    claim_C9_amended (MemoCache.new Nat Nat 2) (Reachable.new 2) (by decide)⟩

end MemoCache
